import Mathlib

/-!
Verification development for the client-side concurrency-control core of a
collaborative cell-grid editor (source: src/utils/raceConditionHandler.ts and
the updateCell flow of src/hooks/useUserPresence.ts).

The embedding is shallow: JS numbers used as millisecond timestamps and
version counters are modelled as Nat, JS Map objects as insertion-ordered
association lists with the same set/get/delete semantics, and the event-loop
behaviour (debounce timers, the operation queue's await points, the batch
flush callback) as explicit step functions over explicit state.
-/

/-! ### Data model -/

/-- Scalar content of a cell: the source type is string | number | null. -/
inductive CellContent where
  | str (s : String)
  | num (n : Int)
  | null
deriving DecidableEq, Repr

/-- CellValue record from raceConditionHandler.ts: value, timestamp (ms),
userId of the writer, and writer-local version number. -/
structure CellValue where
  value : CellContent
  timestamp : Nat
  userId : String
  version : Nat
deriving DecidableEq, Repr

/-- ConflictResolution record returned by resolveCellConflict. -/
structure ConflictResolution where
  resolved : Bool
  finalValue : CellValue
  conflicts : List CellValue
deriving DecidableEq, Repr

/-! ### Conflict resolver -/

/-- Direct translation of resolveCellConflict: on equal timestamps the input
with the larger version wins (remote on a full tie); otherwise the input with
the strictly greater timestamp wins.  The third parameter is the unused
currentUserId argument of the source function. -/
def resolveCellConflict (localValue remoteValue : CellValue)
    (_currentUserId : String) : ConflictResolution :=
  if localValue.timestamp = remoteValue.timestamp then
    let winner :=
      if remoteValue.version < localValue.version then localValue else remoteValue
    { resolved := true, finalValue := winner,
      conflicts := [localValue, remoteValue] }
  else
    let winner :=
      if localValue.timestamp < remoteValue.timestamp then remoteValue else localValue
    { resolved := true, finalValue := winner,
      conflicts := [localValue, remoteValue] }

/-- Ordering corresponding to the comparator passed to the JS sort in
mergeCellUpdates.  cellLe a b holds when the comparator value
(b.timestamp - a.timestamp, ties broken by b.version - a.version) is
nonpositive, i.e. a may be placed before b in the descending order. -/
def cellLe (a b : CellValue) : Prop :=
  if a.timestamp = b.timestamp then b.version ≤ a.version
  else b.timestamp < a.timestamp

instance : DecidableRel cellLe := fun a b => by
  unfold cellLe
  infer_instance

/-- Direct translation of mergeCellUpdates: throw on the empty list, return
the single element of a singleton, otherwise sort with the descending
comparator and return element 0.  The JS Array sort is a stable sort and is
modelled here by the stable List.insertionSort. -/
def mergeCellUpdates (updates : List CellValue) : Except String CellValue :=
  match updates with
  | [] => Except.error "Cannot merge empty updates"
  | [u] => Except.ok u
  | u :: rest => Except.ok ((List.insertionSort cellLe (u :: rest)).headD u)

/-- Iterated pairwise conflict resolution: fold resolveCellConflict over a
list, starting from a first value, keeping each step's winner.  Claim C10
shows the currentUserId argument is irrelevant, so the empty string is
passed. -/
def iterResolve (w : CellValue) (l : List CellValue) : CellValue :=
  l.foldl (fun acc x => (resolveCellConflict acc x "").finalValue) w

/-- Two cell values carry distinct sort keys: they differ in timestamp or in
version. -/
def KeyDistinct (a b : CellValue) : Prop :=
  a.timestamp ≠ b.timestamp ∨ a.version ≠ b.version

instance : ∀ a b, Decidable (KeyDistinct a b) := fun a b => by
  unfold KeyDistinct
  infer_instance

/-! ### Association-list model of JS Map -/

/-- Association-list model of a JS Map with String keys: get. -/
def mget {α : Type} (m : List (String × α)) (k : String) : Option α :=
  match m with
  | [] => none
  | (k', v) :: rest => if k' = k then some v else mget rest k

/-- Association-list model of a JS Map with String keys: set.  A present key
is overwritten in place (JS Map.set keeps the original insertion position);
an absent key is appended at the end. -/
def mset {α : Type} (m : List (String × α)) (k : String) (v : α) :
    List (String × α) :=
  match m with
  | [] => [(k, v)]
  | (k', v') :: rest =>
    if k' = k then (k, v) :: rest else (k', v') :: mset rest k v

/-- Association-list model of a JS Map with String keys: delete. -/
def mdel {α : Type} (m : List (String × α)) (k : String) :
    List (String × α) :=
  match m with
  | [] => []
  | (k', v') :: rest =>
    if k' = k then rest else (k', v') :: mdel rest k

/-! ### Cell lock manager -/

/-- Lock record stored by the CellLockManager: the holder's userId and the
timestamp at which the lock was (re)stamped. -/
structure LockEntry where
  userId : String
  timestamp : Nat
deriving DecidableEq, Repr

/-- State of the CellLockManager: the lockedCells map. -/
abbrev LockState : Type := List (String × LockEntry)

/-- Direct translation of CellLockManager.lockCell.  Date.now() is passed in
as the explicit argument now.  A stale existing lock (age strictly over
5000 ms) is deleted first; then, if the cell is still locked by a different
user, the call returns false without further mutation, otherwise the lock is
stamped with the given user and the current time. -/
def lockCell (m : LockState) (cellId userId : String) (now : Nat) :
    Bool × LockState :=
  let m1 :=
    match mget m cellId with
    | some l => if now - l.timestamp > 5000 then mdel m cellId else m
    | none => m
  match mget m1 cellId with
  | some l =>
    if l.userId ≠ userId then (false, m1)
    else (true, mset m1 cellId ⟨userId, now⟩)
  | none => (true, mset m1 cellId ⟨userId, now⟩)

/-- Direct translation of CellLockManager.unlockCell: delete only when the
stored lock's holder matches. -/
def unlockCell (m : LockState) (cellId userId : String) : LockState :=
  match mget m cellId with
  | some l => if l.userId = userId then mdel m cellId else m
  | none => m

/-- Direct translation of CellLockManager.isLocked: a bare map-membership
check, with no staleness test. -/
def isLocked (m : LockState) (cellId : String) : Bool :=
  (mget m cellId).isSome

/-- Direct translation of CellLockManager.getLockedBy: returns the stored
holder, with no staleness test. -/
def getLockedBy (m : LockState) (cellId : String) : Option String :=
  match mget m cellId with
  | some l => some l.userId
  | none => none

/-- Direct translation of CellLockManager.clearStaleLocks: remove every entry
whose age at the given time strictly exceeds 5000 ms. -/
def clearStaleLocks (m : LockState) (now : Nat) : LockState :=
  m.filter (fun e => !(now - e.2.timestamp > 5000))

/-- Direct translation of CellLockManager.getAllLocks: copy every stored
entry (stale or not) into a cellId-to-userId map. -/
def getAllLocks (m : LockState) : List (String × String) :=
  m.map (fun e => (e.1, e.2.userId))

/-! ### Version manager -/

/-- State of the VersionManager: the global counter and the pendingUpdates
map from cellId to the last issued version. -/
structure VMState where
  version : Nat
  pendingUpdates : List (String × Nat)
deriving DecidableEq, Repr

/-- Direct translation of VersionManager.getNextVersion: increment the global
counter, record the cell as pending at the new value, return the new value. -/
def getNextVersion (s : VMState) (cellId : String) : Nat × VMState :=
  let v := s.version + 1
  (v, ⟨v, mset s.pendingUpdates cellId v⟩)

/-- Direct translation of VersionManager.confirmUpdate: drop the pending
entry, leaving the counter unchanged. -/
def confirmUpdate (s : VMState) (cellId : String) : VMState :=
  ⟨s.version, mdel s.pendingUpdates cellId⟩

/-- Direct translation of VersionManager.rollbackUpdate: drop the pending
entry; the counter stays incremented to prevent conflicts. -/
def rollbackUpdate (s : VMState) (cellId : String) : VMState :=
  ⟨s.version, mdel s.pendingUpdates cellId⟩

/-- One externally visible VersionManager call, for stating properties over
arbitrary operation sequences. -/
inductive VMOp where
  | next (cellId : String)
  | confirm (cellId : String)
  | rollback (cellId : String)

/-- Run a sequence of VersionManager calls, collecting in order the values
returned by the getNextVersion calls. -/
def vmRun (s : VMState) : List VMOp → VMState × List Nat
  | [] => (s, [])
  | VMOp.next c :: rest =>
    let p := getNextVersion s c
    let q := vmRun p.2 rest
    (q.1, p.1 :: q.2)
  | VMOp.confirm c :: rest => vmRun (confirmUpdate s c) rest
  | VMOp.rollback c :: rest => vmRun (rollbackUpdate s c) rest

/-! ### Batch update manager -/

/-- State of the BatchUpdateManager: the pending batch map and whether a
debounce timer handle is currently stored (batchTimeout is non-null). -/
structure BatchState where
  batch : List (String × CellValue)
  timerSet : Bool
deriving DecidableEq, Repr

/-- Direct translation of BatchUpdateManager.addUpdate: overwrite the cell's
entry, cancel any outstanding debounce timer and start a fresh one.  Because
every call cancels the previous timer, only the timer created by the last
call of a burst can ever fire. -/
def addUpdate (s : BatchState) (cellId : String) (value : CellValue) :
    BatchState :=
  { batch := mset s.batch cellId value, timerSet := true }

/-- Firing of the debounce timer, running the private flush of the
BatchUpdateManager: on an empty batch nothing happens and no callback is
invoked (modelled as none); otherwise the batch map is snapshotted and
cleared, the timer handle is nulled, and the snapshot is handed to the flush
callback (modelled as some snapshot). -/
def fireTimer (s : BatchState) : Option (List (String × CellValue)) × BatchState :=
  if s.batch.isEmpty then (none, s)
  else (some s.batch, { batch := [], timerSet := false })

/-- Apply a burst of addUpdate calls in order. -/
def applyAdds (s : BatchState) : List (String × CellValue) → BatchState
  | [] => s
  | (c, v) :: rest => applyAdds (addUpdate s c v) rest

/-- Value carried by the last addUpdate of the burst for a given cell, none
when the burst never touched that cell. -/
def lastAdded : List (String × CellValue) → String → Option CellValue
  | [], _ => none
  | (k, v) :: rest, c =>
    match lastAdded rest c with
    | some w => some w
    | none => if k = c then some v else none

/-- A BatchUpdateManager as just constructed: empty batch, no timer. -/
def initBatch : BatchState := ⟨[], false⟩

/-! ### The updateCell flow of the useRaceConditionHandler hook -/

/-- Combined per-session state owned by the useRaceConditionHandler hook: one
VersionManager, one CellLockManager and one BatchUpdateManager. -/
structure SyncState where
  vm : VMState
  lm : LockState
  bm : BatchState

/-- Direct translation of the synchronous body of updateCell
(useUserPresence.ts): try to lock the cell, and on success stamp a fresh
version, build the CellValue and hand it to the batch manager, returning
true.  Nothing in this synchronous body can throw: the persistence sink is
only invoked later, when the debounce timer fires, so the catch block of the
source (rollback, unlock, rethrow) is unreachable for sink failures. -/
def updateCell (s : SyncState) (cellId : String) (value : CellContent)
    (userId : String) (now : Nat) : Bool × SyncState :=
  let p := lockCell s.lm cellId userId now
  if !p.1 then (false, { s with lm := p.2 })
  else
    let q := getNextVersion s.vm cellId
    let cv : CellValue :=
      { value := value, timestamp := now, userId := userId, version := q.1 }
    (true, { vm := q.2, lm := p.2, bm := addUpdate s.bm cellId cv })

/-- Direct translation of the flush callback closure built inside updateCell:
walk the flushed entries in order and, for each, await the persistence sink
and then confirm the version and release the lock.  When the sink rejects,
the loop stops there: the remaining entries are not processed, no rollback or
unlock runs for the failed entry, and the rejection escapes the callback
(returned here as some message). -/
def runFlushCallback (vm : VMState) (lm : LockState) (userId : String)
    (sink : String → CellValue → Except String Unit) :
    List (String × CellValue) → VMState × LockState × Option String
  | [] => (vm, lm, none)
  | (id, cv) :: rest =>
    match sink id cv with
    | Except.error e => (vm, lm, some e)
    | Except.ok _ =>
      runFlushCallback (confirmUpdate vm id) (unlockCell lm id userId)
        userId sink rest

/-- Firing of the batch timer at the session level: the batch manager's flush
snapshots and clears the batch, then the callback registered by updateCell
runs over the snapshot.  The returned Option String is a sink rejection that
escaped the detached timer callback — it is an unhandled promise rejection,
delivered to no caller. -/
def fireBatchFlush (s : SyncState) (userId : String)
    (sink : String → CellValue → Except String Unit) :
    SyncState × Option String :=
  let p := fireTimer s.bm
  match p.1 with
  | none => ({ s with bm := p.2 }, none)
  | some entries =>
    let r := runFlushCallback s.vm s.lm userId sink entries
    ({ vm := r.1, lm := r.2.1, bm := p.2 }, r.2.2)

/-- A session as just constructed by the hook: fresh managers. -/
def initSync : SyncState := ⟨⟨0, []⟩, [], initBatch⟩

/-! ### Operation queue -/

/-- Observable trace event of the OperationQueue: an operation's wrapped
closure begins executing, or its awaited promise settles. -/
inductive TEvent where
  | start (id : Nat)
  | finish (id : Nat)
deriving DecidableEq, Repr

/-- External stimulus to the OperationQueue model: a caller enqueues an
operation (identified by id, taking the given number of event-loop steps to
settle), or the event loop advances the currently awaited operation by one
step. -/
inductive QEvent where
  | enq (id : Nat) (steps : Nat)
  | tick
deriving DecidableEq, Repr

/-- State of the OperationQueue model: the pending queue array (ids paired
with remaining durations), the processing flag, the operation currently being
awaited by the drain loop, and the chronological trace of observable
events. -/
structure QState where
  queue : List (Nat × Nat)
  processing : Bool
  current : Option (Nat × Nat)
  trace : List TEvent
deriving DecidableEq, Repr

/-- One step of the OperationQueue model, translated from enqueue and
process: enqueue pushes the wrapped operation and calls process, which
returns at once if the processing flag is set and otherwise sets the flag and
starts draining — shifting the first queued operation and awaiting it
(emitting its start).  A tick advances the awaited operation; when it
settles, its finish is emitted and the drain loop shifts the next operation
or, with the queue empty, clears the processing flag. -/
def qStep (s : QState) : QEvent → QState
  | QEvent.enq id steps =>
    let q := s.queue ++ [(id, steps)]
    if s.processing then { s with queue := q }
    else
      match q with
      | [] => { s with queue := q }
      | (i, n) :: rest =>
        { queue := rest, processing := true, current := some (i, n),
          trace := s.trace ++ [TEvent.start i] }
  | QEvent.tick =>
    match s.current with
    | none => s
    | some (i, Nat.succ n) => { s with current := some (i, n) }
    | some (i, 0) =>
      match s.queue with
      | (j, m) :: rest =>
        { queue := rest, processing := true, current := some (j, m),
          trace := s.trace ++ [TEvent.finish i, TEvent.start j] }
      | [] =>
        { queue := [], processing := false, current := none,
          trace := s.trace ++ [TEvent.finish i] }

/-- Run the OperationQueue model from a state over a list of stimuli. -/
def qRun (s : QState) : List QEvent → QState
  | [] => s
  | e :: rest => qRun (qStep s e) rest

/-- An OperationQueue as just constructed: empty queue, idle. -/
def initQueue : QState := ⟨[], false, none, []⟩

/-- Ids of the operations enqueued by a stimulus list, in order. -/
def enqOrder (evts : List QEvent) : List Nat :=
  evts.filterMap (fun e =>
    match e with
    | QEvent.enq i _ => some i
    | QEvent.tick => none)

/-- The strictly serial trace in which each listed operation starts only
after the previous one finished, optionally followed by the start of a
still-running operation. -/
def mkSerial (done : List Nat) (cur : Option Nat) : List TEvent :=
  done.flatMap (fun i => [TEvent.start i, TEvent.finish i]) ++
    (match cur with
     | some i => [TEvent.start i]
     | none => [])

/-- Invariant tying a queue state to the order in which operations were
enqueued so far: the trace is the strictly serial trace of the already
finished operations followed by the currently running one; the enqueue order
is exactly finished ++ running ++ still-queued; the processing flag is set
iff an operation is being awaited; and an idle queue is empty. -/
def QInv (s : QState) (order : List Nat) : Prop :=
  ∃ done,
    s.trace = mkSerial done (s.current.map Prod.fst) ∧
    order = done ++ (s.current.map Prod.fst).toList ++ s.queue.map Prod.fst ∧
    s.processing = s.current.isSome ∧
    (s.current = none → s.queue = [])

/-! ### Helper lemmas -/

theorem cellLe_iff (a b : CellValue) :
    cellLe a b ↔
      b.timestamp < a.timestamp ∨
        (a.timestamp = b.timestamp ∧ b.version ≤ a.version) := by
  unfold cellLe
  by_cases h : a.timestamp = b.timestamp <;> simp [h]

theorem cellLe_total (a b : CellValue) : cellLe a b ∨ cellLe b a := by
  simp only [cellLe_iff]
  omega

theorem cellLe_trans (a b c : CellValue) (hab : cellLe a b) (hbc : cellLe b c) :
    cellLe a c := by
  simp only [cellLe_iff] at *
  omega

theorem mget_mset_self {α : Type} (m : List (String × α)) (k : String) (v : α) :
    mget (mset m k v) k = some v := by
  induction m with
  | nil => simp [mset, mget]
  | cons hd tl ih =>
    obtain ⟨k', v'⟩ := hd
    by_cases h : k' = k <;> simp [mset, mget, h, ih]

theorem mget_mset_ne {α : Type} (m : List (String × α)) (k k' : String) (v : α)
    (h : k ≠ k') : mget (mset m k v) k' = mget m k' := by
  induction m with
  | nil => simp [mset, mget, h]
  | cons hd tl ih =>
    obtain ⟨k0, v0⟩ := hd
    by_cases h0 : k0 = k
    · subst h0
      simp [mset, mget, h]
    · by_cases h1 : k0 = k' <;> simp [mset, mget, h0, h1, ih, Ne.symm h]

theorem mget_mdel_self {α : Type} (m : List (String × α)) (k : String)
    (hnd : (m.map Prod.fst).Nodup) : mget (mdel m k) k = none := by
  induction m with
  | nil => simp [mdel, mget]
  | cons hd tl ih =>
    obtain ⟨k0, v0⟩ := hd
    simp only [List.map_cons, List.nodup_cons] at hnd
    by_cases h0 : k0 = k
    · subst h0
      have : mget tl k0 = none := by
        clear ih
        induction tl with
        | nil => simp [mget]
        | cons hd' tl' ih' =>
          obtain ⟨k1, v1⟩ := hd'
          simp only [List.map_cons, List.mem_cons, List.nodup_cons] at hnd
          have hne : k1 ≠ k0 := fun h => hnd.1 (h ▸ Or.inl rfl)
          simp only [mget, hne, if_neg hne]
          exact ih' ⟨fun hm => hnd.1 (Or.inr hm), hnd.2.2⟩
      simpa [mdel] using this
    · simp [mdel, mget, h0, ih hnd.2]

theorem mget_mdel_ne {α : Type} (m : List (String × α)) (k k' : String)
    (h : k ≠ k') : mget (mdel m k) k' = mget m k' := by
  induction m with
  | nil => simp [mdel]
  | cons hd tl ih =>
    obtain ⟨k0, v0⟩ := hd
    by_cases h0 : k0 = k
    · subst h0
      simp [mdel, mget, h, Ne.symm h, ih]
    · by_cases h1 : k0 = k' <;> simp [mdel, mget, h0, h1, ih, h, Ne.symm h]

theorem mkSerial_push_start (done : List Nat) (i : Nat) :
    mkSerial done none ++ [TEvent.start i] = mkSerial done (some i) := by
  simp [mkSerial]

theorem mkSerial_push_finish (done : List Nat) (i : Nat) :
    mkSerial done (some i) ++ [TEvent.finish i] = mkSerial (done ++ [i]) none := by
  simp [mkSerial, List.flatMap_append]

theorem mkSerial_push_finish_start (done : List Nat) (i j : Nat) :
    mkSerial done (some i) ++ [TEvent.finish i, TEvent.start j] =
      mkSerial (done ++ [i]) (some j) := by
  have h1 : mkSerial done (some i) ++ [TEvent.finish i, TEvent.start j] =
      (mkSerial done (some i) ++ [TEvent.finish i]) ++ [TEvent.start j] := by
    simp
  rw [h1, mkSerial_push_finish, mkSerial_push_start]

/-! ### Claim theorems -/

/-- C2: for every pair of cell values with distinct timestamps,
resolveCellConflict returns as winner the input with the strictly greater
timestamp, regardless of version or writerId; for every pair with equal
timestamps and distinct versions, it returns the input with the larger
version. -/
theorem resolveCellConflict_order_correct (a b : CellValue) (u : String) :
    (a.timestamp < b.timestamp → (resolveCellConflict a b u).finalValue = b) ∧
    (b.timestamp < a.timestamp → (resolveCellConflict a b u).finalValue = a) ∧
    (a.timestamp = b.timestamp → a.version < b.version →
      (resolveCellConflict a b u).finalValue = b) ∧
    (a.timestamp = b.timestamp → b.version < a.version →
      (resolveCellConflict a b u).finalValue = a) := by
  refine ⟨fun h => ?_, fun h => ?_, fun h1 h2 => ?_, fun h1 h2 => ?_⟩
  · have hne : a.timestamp ≠ b.timestamp := by omega
    simp [resolveCellConflict, hne, h]
  · have hne : a.timestamp ≠ b.timestamp := by omega
    have hnlt : ¬a.timestamp < b.timestamp := by omega
    simp [resolveCellConflict, hne, hnlt]
  · have hnlt : ¬b.version < a.version := by omega
    simp [resolveCellConflict, h1, hnlt]
  · simp [resolveCellConflict, h1, h2]

/-- Witness for C2 at concrete inputs: a strictly later timestamp wins even
against a higher version, and on a timestamp tie the higher version wins. -/
theorem resolveCellConflict_order_correct_witness :
    (resolveCellConflict ⟨CellContent.str "x", 1, "A", 9⟩
        ⟨CellContent.str "y", 2, "B", 1⟩ "u").finalValue =
      ⟨CellContent.str "y", 2, "B", 1⟩ ∧
    (resolveCellConflict ⟨CellContent.str "x", 7, "A", 1⟩
        ⟨CellContent.str "y", 7, "B", 3⟩ "u").finalValue =
      ⟨CellContent.str "y", 7, "B", 3⟩ :=
  ⟨(resolveCellConflict_order_correct _ _ "u").1 (by decide),
   (resolveCellConflict_order_correct _ _ "u").2.2.1 (by decide) (by decide)⟩

/-- C6 counterexample: on a full tie (equal timestamp and equal version) the
winner is whichever argument was passed second, so swapping the argument
order swaps the winner. -/
theorem resolveCellConflict_not_commutative :
    (resolveCellConflict ⟨CellContent.str "x", 1000, "A", 1⟩
        ⟨CellContent.str "y", 1000, "B", 1⟩ "u").finalValue ≠
      (resolveCellConflict ⟨CellContent.str "y", 1000, "B", 1⟩
        ⟨CellContent.str "x", 1000, "A", 1⟩ "u").finalValue := by
  decide

/-- C6 amended: resolveCellConflict is commutative in outcome for every pair
of inputs that differ in timestamp or in version; only full (timestamp,
version) ties are order-dependent. -/
theorem resolveCellConflict_commutative_off_tie (a b : CellValue) (u : String)
    (h : a.timestamp ≠ b.timestamp ∨ a.version ≠ b.version) :
    (resolveCellConflict a b u).finalValue =
      (resolveCellConflict b a u).finalValue := by
  by_cases hts : a.timestamp = b.timestamp
  · have hv : a.version ≠ b.version := by
      rcases h with h | h
      · exact absurd hts h
      · exact h
    rcases Nat.lt_or_ge a.version b.version with hlt | hge
    · have h1 : ¬b.version < a.version := by omega
      simp [resolveCellConflict, hts, h1, hlt]
    · have h2 : b.version < a.version := by omega
      simp [resolveCellConflict, hts, h2, Nat.lt_asymm h2]
  · have hts' : b.timestamp ≠ a.timestamp := fun hh => hts hh.symm
    rcases Nat.lt_or_ge a.timestamp b.timestamp with hlt | hge
    · simp [resolveCellConflict, hts, hts', hlt, Nat.lt_asymm hlt]
    · have h2 : b.timestamp < a.timestamp := by omega
      have h3 : ¬a.timestamp < b.timestamp := by omega
      simp [resolveCellConflict, hts, hts', h2, h3]

/-- Witness for the amended C6 at a concrete input with distinct
timestamps. -/
theorem resolveCellConflict_commutative_off_tie_witness :
    (resolveCellConflict ⟨CellContent.str "p", 10, "A", 1⟩
        ⟨CellContent.str "q", 20, "B", 1⟩ "u").finalValue =
      (resolveCellConflict ⟨CellContent.str "q", 20, "B", 1⟩
        ⟨CellContent.str "p", 10, "A", 1⟩ "u").finalValue :=
  resolveCellConflict_commutative_off_tie _ _ "u" (by decide)

/-- C10: the result of resolveCellConflict does not depend on its third
(currentUserId) parameter — the full ConflictResolution record (finalValue,
resolved flag and conflicts list) is identical for any two user ids. -/
theorem resolveCellConflict_ignores_user (a b : CellValue) (u1 u2 : String) :
    resolveCellConflict a b u1 = resolveCellConflict a b u2 := rfl

theorem keyDistinct_symm : Symmetric KeyDistinct :=
  fun _ _ h => h.imp Ne.symm Ne.symm

theorem resolveCellConflict_head_wins (w x : CellValue)
    (h1 : cellLe w x) (h2 : KeyDistinct w x) :
    (resolveCellConflict w x "").finalValue = w := by
  rw [cellLe_iff] at h1
  unfold KeyDistinct at h2
  by_cases hts : w.timestamp = x.timestamp
  · have hlt : x.version < w.version := by omega
    simp [resolveCellConflict, hts, hlt]
  · have hxw : x.timestamp < w.timestamp := by
      rcases h1 with h | h
      · exact h
      · exact absurd h.1 hts
    simp [resolveCellConflict, hts, Nat.lt_asymm hxw]

theorem iterResolve_of_head_wins (w : CellValue) (l : List CellValue)
    (h : ∀ x ∈ l, cellLe w x ∧ KeyDistinct w x) : iterResolve w l = w := by
  induction l with
  | nil => rfl
  | cons x rest ih =>
    have hx := h x (List.mem_cons_self x rest)
    simp only [iterResolve, List.foldl_cons]
    rw [resolveCellConflict_head_wins w x hx.1 hx.2]
    exact ih (fun y hy => h y (List.mem_cons_of_mem x hy))

/-- C3 counterexample: on two updates that fully tie on (timestamp, version)
but differ in value, mergeCellUpdates returns the head of the stable-sorted
list, while the iterative pairwise resolution over that same sorted list
returns the other element, so the two methods disagree. -/
theorem mergeCellUpdates_ne_iterResolve_on_tie :
    mergeCellUpdates [⟨CellContent.str "x", 1000, "A", 1⟩,
        ⟨CellContent.str "y", 1000, "B", 1⟩] =
      Except.ok ⟨CellContent.str "x", 1000, "A", 1⟩ ∧
    List.insertionSort cellLe [⟨CellContent.str "x", 1000, "A", 1⟩,
        ⟨CellContent.str "y", 1000, "B", 1⟩] =
      [⟨CellContent.str "x", 1000, "A", 1⟩, ⟨CellContent.str "y", 1000, "B", 1⟩] ∧
    iterResolve ⟨CellContent.str "x", 1000, "A", 1⟩
        [⟨CellContent.str "y", 1000, "B", 1⟩] =
      ⟨CellContent.str "y", 1000, "B", 1⟩ ∧
    (⟨CellContent.str "x", 1000, "A", 1⟩ : CellValue) ≠
      ⟨CellContent.str "y", 1000, "B", 1⟩ :=
  ⟨rfl, by decide, by decide, by decide⟩

/-- C3 amended: for every nonempty list of updates, mergeCellUpdates returns
the head of the list stable-sorted descending by timestamp then by version
(the sorted list being a sorted permutation of the input), and that head
equals the winner of iteratively applying pairwise resolveCellConflict over
the sorted list PROVIDED the updates' (timestamp, version) keys are pairwise
distinct (full ties break the equality, as the counterexample shows); the
empty list fails with the empty-merge error. -/
theorem mergeCellUpdates_sorted_head :
    mergeCellUpdates [] = Except.error "Cannot merge empty updates" ∧
    ∀ (u : CellValue) (rest : List CellValue),
      mergeCellUpdates (u :: rest) =
        Except.ok ((List.insertionSort cellLe (u :: rest)).headD u) ∧
      List.Pairwise cellLe (List.insertionSort cellLe (u :: rest)) ∧
      (u :: rest).Perm (List.insertionSort cellLe (u :: rest)) ∧
      (List.Pairwise KeyDistinct (u :: rest) →
        iterResolve ((List.insertionSort cellLe (u :: rest)).headD u)
            (List.insertionSort cellLe (u :: rest)).tail =
          (List.insertionSort cellLe (u :: rest)).headD u) := by
  haveI : IsTotal CellValue cellLe := ⟨cellLe_total⟩
  haveI : IsTrans CellValue cellLe := ⟨cellLe_trans⟩
  refine ⟨rfl, fun u rest => ?_⟩
  have hperm : (List.insertionSort cellLe (u :: rest)).Perm (u :: rest) :=
    List.perm_insertionSort cellLe (u :: rest)
  obtain ⟨w, srest, hws⟩ :
      ∃ w srest, List.insertionSort cellLe (u :: rest) = w :: srest := by
    cases hs : List.insertionSort cellLe (u :: rest) with
    | nil =>
      exfalso
      have := (hs ▸ hperm).length_eq
      simp at this
    | cons w srest => exact ⟨w, srest, rfl⟩
  have hsorted : List.Pairwise cellLe (List.insertionSort cellLe (u :: rest)) :=
    List.sorted_insertionSort cellLe (u :: rest)
  refine ⟨?_, hsorted, hperm.symm, ?_⟩
  · cases rest with
    | nil =>
      have hu : List.insertionSort cellLe [u] = [u] := rfl
      simp [mergeCellUpdates, hu]
    | cons b tl => simp [mergeCellUpdates, hws]
  · intro hdist
    have hdist2 : List.Pairwise KeyDistinct (w :: srest) := by
      have hp : (w :: srest).Perm (u :: rest) := hws ▸ hperm
      exact (hp.pairwise_iff (fun h => keyDistinct_symm h)).mpr hdist
    have hsorted2 : List.Pairwise cellLe (w :: srest) := hws ▸ hsorted
    rw [hws]
    simp only [List.headD_cons, List.tail_cons]
    apply iterResolve_of_head_wins
    intro x hx
    exact ⟨(List.pairwise_cons.mp hsorted2).1 x hx,
      (List.pairwise_cons.mp hdist2).1 x hx⟩

/-- Witness for the amended C3 at a concrete two-element input with distinct
timestamps: the later write wins and the iterative fold agrees. -/
theorem mergeCellUpdates_sorted_head_witness :
    mergeCellUpdates [⟨CellContent.str "a", 5, "A", 1⟩,
        ⟨CellContent.str "b", 9, "B", 1⟩] =
      Except.ok ⟨CellContent.str "b", 9, "B", 1⟩ ∧
    iterResolve ⟨CellContent.str "b", 9, "B", 1⟩ [⟨CellContent.str "a", 5, "A", 1⟩] =
      ⟨CellContent.str "b", 9, "B", 1⟩ := by
  have h := mergeCellUpdates_sorted_head.2 ⟨CellContent.str "a", 5, "A", 1⟩
    [⟨CellContent.str "b", 9, "B", 1⟩]
  have hs : List.insertionSort cellLe [⟨CellContent.str "a", 5, "A", 1⟩,
      ⟨CellContent.str "b", 9, "B", 1⟩] =
      [⟨CellContent.str "b", 9, "B", 1⟩, ⟨CellContent.str "a", 5, "A", 1⟩] := by
    decide
  obtain ⟨h1, -, -, h4⟩ := h
  rw [hs] at h1 h4
  exact ⟨h1, by simpa using h4 (by decide)⟩

/-- C5: lockCell returns true and (re)stamps the lock with the given holder
and the current time whenever the cell is unlocked, its existing lock is
stale (older than 5000 ms), or the live lock is already held by the same
holder; it returns false and leaves the state unchanged exactly in the
remaining case — a live lock held by a different holder — after which the
lock is still held by the original holder. -/
theorem lockCell_spec (m : LockState) (cellId userId : String) (now : Nat)
    (hnd : (m.map Prod.fst).Nodup) :
    (mget m cellId = none →
      lockCell m cellId userId now = (true, mset m cellId ⟨userId, now⟩)) ∧
    (∀ l, mget m cellId = some l → now - l.timestamp > 5000 →
      (lockCell m cellId userId now).1 = true ∧
      mget (lockCell m cellId userId now).2 cellId = some ⟨userId, now⟩) ∧
    (∀ l, mget m cellId = some l → ¬now - l.timestamp > 5000 →
      l.userId = userId →
      (lockCell m cellId userId now).1 = true ∧
      mget (lockCell m cellId userId now).2 cellId = some ⟨userId, now⟩) ∧
    (∀ l, mget m cellId = some l → ¬now - l.timestamp > 5000 →
      l.userId ≠ userId →
      lockCell m cellId userId now = (false, m) ∧
      getLockedBy (lockCell m cellId userId now).2 cellId = some l.userId) := by
  refine ⟨?_, ?_, ?_, ?_⟩
  · intro hget
    simp [lockCell, hget]
  · intro l hget hstale
    have h1 : mget (mdel m cellId) cellId = none := mget_mdel_self m cellId hnd
    simp [lockCell, hget, hstale, h1, mget_mset_self]
  · intro l hget hlive hsame
    simp [lockCell, hget, hlive, hsame, mget_mset_self]
  · intro l hget hlive hdiff
    simp [lockCell, hget, hlive, hdiff, getLockedBy]

/-- Witness for C5 at concrete inputs: acquiring a free cell, re-acquiring a
stale lock, and being refused by a live lock of a different holder. -/
theorem lockCell_spec_witness :
    lockCell [] "c" "A" 100 = (true, mset [] "c" ⟨"A", 100⟩) ∧
    (lockCell [("c", ⟨"B", 0⟩)] "c" "A" 6000).1 = true ∧
    mget (lockCell [("c", ⟨"B", 0⟩)] "c" "A" 6000).2 "c" = some ⟨"A", 6000⟩ ∧
    lockCell [("c", ⟨"B", 200⟩)] "c" "A" 300 = (false, [("c", ⟨"B", 200⟩)]) :=
  ⟨(lockCell_spec [] "c" "A" 100 (by decide)).1 rfl,
   ((lockCell_spec [("c", ⟨"B", 0⟩)] "c" "A" 6000 (by decide)).2.1
      ⟨"B", 0⟩ rfl (by decide)).1,
   ((lockCell_spec [("c", ⟨"B", 0⟩)] "c" "A" 6000 (by decide)).2.1
      ⟨"B", 0⟩ rfl (by decide)).2,
   ((lockCell_spec [("c", ⟨"B", 200⟩)] "c" "A" 300 (by decide)).2.2.2
      ⟨"B", 200⟩ rfl (by decide) (by decide)).1⟩

theorem mget_eq_none_of_not_mem_keys {α : Type} (m : List (String × α))
    (k : String) (h : k ∉ m.map Prod.fst) : mget m k = none := by
  induction m with
  | nil => rfl
  | cons hd tl ih =>
    obtain ⟨k0, v0⟩ := hd
    simp only [List.map_cons, List.mem_cons] at h
    push_neg at h
    have hne : k0 ≠ k := fun hh => h.1 hh.symm
    simp only [mget, if_neg hne]
    exact ih h.2

theorem mget_filter_eq_none {α : Type} (m : List (String × α)) (k : String)
    (p : String × α → Bool) (hnd : (m.map Prod.fst).Nodup) (l : α)
    (hget : mget m k = some l) (hp : p (k, l) = false) :
    mget (m.filter p) k = none := by
  induction m with
  | nil => simp [mget] at hget
  | cons hd tl ih =>
    obtain ⟨k0, v0⟩ := hd
    simp only [List.map_cons, List.nodup_cons] at hnd
    by_cases h0 : k0 = k
    · subst h0
      simp [mget] at hget
      subst hget
      have hsub : (tl.filter p).map Prod.fst ⊆ tl.map Prod.fst :=
        List.map_subset _ (List.filter_subset' tl)
      have htlf : mget (tl.filter p) k0 = none :=
        mget_eq_none_of_not_mem_keys (tl.filter p) k0 (fun hm => hnd.1 (hsub hm))
      simp [List.filter_cons, hp, htlf]
    · simp only [mget, if_neg h0] at hget
      have := ih hnd.2 hget
      by_cases hph : p (k0, v0) = true <;>
        simp [List.filter_cons, hph, mget, h0, this]

theorem mget_getAllLocks (m : LockState) (k : String) :
    mget (getAllLocks m) k = Option.map LockEntry.userId (mget m k) := by
  induction m with
  | nil => simp [getAllLocks, mget]
  | cons hd tl ih =>
    obtain ⟨k0, l0⟩ := hd
    by_cases h : k0 = k
    · simp [getAllLocks, mget, h]
    · simp only [getAllLocks, List.map_cons, mget, if_neg h]
      simpa [getAllLocks] using ih

/-- C4 counterexample: a stored lock 6000 ms old (TTL 5000 ms) is still
reported by every read accessor — isLocked is true, getLockedBy returns the
holder, and getAllLocks contains the cell — because none of the read
accessors checks the TTL. -/
theorem staleLock_visible_to_read_accessors :
    (6000 : Nat) - (0 : Nat) > 5000 ∧
    isLocked [("c", ⟨"A", 0⟩)] "c" = true ∧
    getLockedBy [("c", ⟨"A", 0⟩)] "c" = some "A" ∧
    mget (getAllLocks [("c", ⟨"A", 0⟩)]) "c" = some "A" := by
  refine ⟨by decide, by decide, by decide, by decide⟩

/-- C4 amended: a lock whose age exceeds the 5000 ms TTL stays visible to
isLocked, getLockedBy and getAllLocks until it is physically purged; it is
only after a clearStaleLocks sweep at that time that isLocked returns false,
getLockedBy returns null, and getAllLocks no longer contains the cellId
(lockCell does treat the stale lock as absent, per the lockCell contract). -/
theorem staleLock_absent_after_sweep (m : LockState) (cellId : String)
    (l : LockEntry) (now : Nat) (hnd : (m.map Prod.fst).Nodup)
    (hget : mget m cellId = some l) (hstale : now - l.timestamp > 5000) :
    isLocked m cellId = true ∧
    getLockedBy m cellId = some l.userId ∧
    mget (getAllLocks m) cellId = some l.userId ∧
    isLocked (clearStaleLocks m now) cellId = false ∧
    getLockedBy (clearStaleLocks m now) cellId = none ∧
    mget (getAllLocks (clearStaleLocks m now)) cellId = none := by
  have hpure : mget (clearStaleLocks m now) cellId = none := by
    apply mget_filter_eq_none m cellId _ hnd l hget
    simp [hstale]
  refine ⟨?_, ?_, ?_, ?_, ?_, ?_⟩
  · simp [isLocked, hget]
  · simp [getLockedBy, hget]
  · simp [mget_getAllLocks, hget]
  · simp [isLocked, hpure]
  · simp [getLockedBy, hpure]
  · simp [mget_getAllLocks, hpure]

/-- Witness for the amended C4 at a concrete stale lock. -/
theorem staleLock_absent_after_sweep_witness :
    isLocked [("c", ⟨"A", 0⟩)] "c" = true ∧
    isLocked (clearStaleLocks [("c", ⟨"A", 0⟩)] 6000) "c" = false ∧
    getLockedBy (clearStaleLocks [("c", ⟨"A", 0⟩)] 6000) "c" = none ∧
    mget (getAllLocks (clearStaleLocks [("c", ⟨"A", 0⟩)] 6000)) "c" = none := by
  have h := staleLock_absent_after_sweep [("c", ⟨"A", 0⟩)] "c" ⟨"A", 0⟩ 6000
    (by decide) rfl (by decide)
  exact ⟨h.1, h.2.2.2.1, h.2.2.2.2.1, h.2.2.2.2.2⟩

theorem vmRun_version_mono (ops : List VMOp) (s : VMState) :
    s.version ≤ (vmRun s ops).1.version := by
  induction ops generalizing s with
  | nil => exact Nat.le_refl _
  | cons op rest ih =>
    cases op with
    | next c =>
      have := ih (getNextVersion s c).2
      simp only [vmRun]
      simp only [getNextVersion] at this ⊢
      omega
    | confirm c =>
      have := ih (confirmUpdate s c)
      simp only [vmRun]
      simp only [confirmUpdate] at this ⊢
      omega
    | rollback c =>
      have := ih (rollbackUpdate s c)
      simp only [vmRun]
      simp only [rollbackUpdate] at this ⊢
      omega

theorem vmRun_outputs_gt (ops : List VMOp) (s : VMState) :
    ∀ x ∈ (vmRun s ops).2, s.version < x := by
  induction ops generalizing s with
  | nil => intro x hx; simp [vmRun] at hx
  | cons op rest ih =>
    cases op with
    | next c =>
      intro x hx
      simp only [vmRun, List.mem_cons] at hx
      rcases hx with hx | hx
      · subst hx
        simp [getNextVersion]
      · have := ih (getNextVersion s c).2 x hx
        simp only [getNextVersion] at this
        omega
    | confirm c =>
      intro x hx
      have := ih (confirmUpdate s c) x hx
      simp only [confirmUpdate] at this
      omega
    | rollback c =>
      intro x hx
      have := ih (rollbackUpdate s c) x hx
      simp only [rollbackUpdate] at this
      omega

/-- C7: version numbers issued by the VersionManager are strictly increasing
across any sequence of getNextVersion, confirmUpdate and rollbackUpdate
calls; in particular, after getNextVersion(c) returns v followed by
rollbackUpdate(c), every later getNextVersion call (on any cellId) returns a
value strictly greater than v, so a rolled-back version number is never
reissued. -/
theorem versionManager_strictly_increasing (s : VMState) (ops : List VMOp) :
    List.Pairwise (fun a b => a < b) (vmRun s ops).2 ∧
    (∀ (c : String) (rest : List VMOp) (x : Nat),
      x ∈ (vmRun (rollbackUpdate (getNextVersion s c).2 c) rest).2 →
      (getNextVersion s c).1 < x) := by
  constructor
  · induction ops generalizing s with
    | nil => exact List.Pairwise.nil
    | cons op rest ih =>
      cases op with
      | next c =>
        simp only [vmRun, List.pairwise_cons]
        refine ⟨fun x hx => ?_, ih (getNextVersion s c).2⟩
        have := vmRun_outputs_gt rest (getNextVersion s c).2 x hx
        simp only [getNextVersion] at this ⊢
        omega
      | confirm c => exact ih (confirmUpdate s c)
      | rollback c => exact ih (rollbackUpdate s c)
  · intro c rest x hx
    have := vmRun_outputs_gt rest (rollbackUpdate (getNextVersion s c).2 c) x hx
    simp only [getNextVersion, rollbackUpdate] at this ⊢
    omega

/-- Witness for C7: a concrete run issuing 1, then rolling back, then
issuing 2 on another cell — the rolled-back version 1 is not reissued. -/
theorem versionManager_strictly_increasing_witness :
    (vmRun ⟨0, []⟩ [VMOp.next "a", VMOp.rollback "a", VMOp.next "b"]).2 = [1, 2] ∧
    (getNextVersion ⟨0, []⟩ "a").1 < 2 :=
  ⟨rfl,
   (versionManager_strictly_increasing ⟨0, []⟩ []).2 "a" [VMOp.next "b"] 2
     (by decide)⟩

theorem mget_applyAdds (adds : List (String × CellValue)) (s : BatchState)
    (c : String) :
    mget (applyAdds s adds).batch c =
      match lastAdded adds c with
      | some w => some w
      | none => mget s.batch c := by
  induction adds generalizing s with
  | nil => simp [applyAdds, lastAdded]
  | cons hd rest ih =>
    obtain ⟨k, v⟩ := hd
    simp only [applyAdds, lastAdded]
    rw [ih (addUpdate s k v)]
    cases hrest : lastAdded rest c with
    | some w => simp
    | none =>
      by_cases hk : k = c
      · subst hk
        simp [addUpdate, mget_mset_self]
      · simp [addUpdate, hk, mget_mset_ne s.batch k c v hk]

theorem applyAdds_batch_ne_nil (adds : List (String × CellValue))
    (s : BatchState) (h : adds ≠ []) : (applyAdds s adds).batch ≠ [] := by
  obtain ⟨⟨k, v⟩, rest, rfl⟩ : ∃ hd rest, adds = hd :: rest := by
    cases adds with
    | nil => exact absurd rfl h
    | cons hd rest => exact ⟨hd, rest, rfl⟩
  have hne : mget (applyAdds s ((k, v) :: rest)).batch k ≠ none := by
    rw [mget_applyAdds]
    cases hrest : lastAdded ((k, v) :: rest) k with
    | some w => simp
    | none =>
      exfalso
      simp only [lastAdded] at hrest
      cases h0 : lastAdded rest k with
      | some w => simp [h0] at hrest
      | none => simp [h0] at hrest
  intro hnil
  exact hne (by rw [hnil]; rfl)

/-- C8: a burst of addUpdate calls all landing inside one debounce window
(so that no timer fires mid-burst; each call cancels and restarts the single
timer) produces exactly one flush after the burst quiesces: the one timer
fire yields one callback invocation whose map holds, for every cellId,
exactly the value passed by the last addUpdate for that cellId (and nothing
for untouched cells), and a subsequent fire delivers nothing because the
batch was cleared. -/
theorem batch_coalescing (adds : List (String × CellValue)) (h : adds ≠ []) :
    ∃ M s',
      fireTimer (applyAdds initBatch adds) = (some M, s') ∧
      (∀ c, mget M c = lastAdded adds c) ∧
      (fireTimer s').1 = none := by
  have hne : (applyAdds initBatch adds).batch ≠ [] :=
    applyAdds_batch_ne_nil adds initBatch h
  refine ⟨(applyAdds initBatch adds).batch, ⟨[], false⟩, ?_, ?_, rfl⟩
  · simp [fireTimer, List.isEmpty_iff, hne]
  · intro c
    rw [mget_applyAdds]
    cases hl : lastAdded adds c with
    | some w => simp
    | none => simp [initBatch, mget]

/-- Witness for C8: two updates to the same cell in one window flush once,
carrying only the second value. -/
theorem batch_coalescing_witness :
    mget [("c", ⟨CellContent.str "v2", 2, "A", 2⟩)] "c" =
      lastAdded [("c", ⟨CellContent.str "v1", 1, "A", 1⟩),
        ("c", ⟨CellContent.str "v2", 2, "A", 2⟩)] "c" ∧
    lastAdded [("c", ⟨CellContent.str "v1", 1, "A", 1⟩),
        ("c", ⟨CellContent.str "v2", 2, "A", 2⟩)] "c" =
      some ⟨CellContent.str "v2", 2, "A", 2⟩ := by
  obtain ⟨M, s', h1, h2, h3⟩ := batch_coalescing
    [("c", ⟨CellContent.str "v1", 1, "A", 1⟩),
     ("c", ⟨CellContent.str "v2", 2, "A", 2⟩)] (by decide)
  have hM : M = [("c", ⟨CellContent.str "v2", 2, "A", 2⟩)] := by
    have hcomp : (fireTimer (applyAdds initBatch
        [("c", ⟨CellContent.str "v1", 1, "A", 1⟩),
         ("c", ⟨CellContent.str "v2", 2, "A", 2⟩)])).1 =
        some [("c", ⟨CellContent.str "v2", 2, "A", 2⟩)] := rfl
    rw [h1] at hcomp
    exact (Option.some.injEq _ _ ▸ hcomp :)
  subst hM
  exact ⟨h2 "c", rfl⟩

theorem qStep_inv (s : QState) (order : List Nat) (h : QInv s order)
    (e : QEvent) : QInv (qStep s e) (order ++ enqOrder [e]) := by
  obtain ⟨done, htrace, horder, hproc, hidle⟩ := h
  cases e with
  | enq i n =>
    have henq : enqOrder [QEvent.enq i n] = [i] := rfl
    rw [henq]
    by_cases hp : s.processing
    · have hq : qStep s (QEvent.enq i n) =
          { s with queue := s.queue ++ [(i, n)] } := by
        simp [qStep, hp]
      have hcs : s.current.isSome := by rw [← hproc]; exact hp
      refine ⟨done, ?_, ?_, ?_, ?_⟩
      · rw [hq]; exact htrace
      · rw [hq]
        simp only [horder, List.map_append, List.map_cons, List.map_nil]
        simp [List.append_assoc]
      · rw [hq]; exact hproc
      · rw [hq]
        intro hcn
        rw [hcn] at hcs
        simp at hcs
    · have hcnone : s.current = none := by
        cases hc : s.current with
        | none => rfl
        | some p =>
          rw [hc] at hproc
          simp at hproc
          exact absurd hproc hp
      have hqnil : s.queue = [] := hidle hcnone
      have hq : qStep s (QEvent.enq i n) =
          { queue := [], processing := true, current := some (i, n),
            trace := s.trace ++ [TEvent.start i] } := by
        simp [qStep, hp, hqnil]
      refine ⟨done, ?_, ?_, ?_, ?_⟩
      · rw [hq]
        simp only [Option.map_some]
        rw [htrace, hcnone]
        exact mkSerial_push_start done i
      · rw [hq]
        simp only [horder, hcnone, hqnil]
        simp
      · rw [hq]
        rfl
      · rw [hq]
        intro hcn
        simp at hcn
  | tick =>
    have htick : enqOrder [QEvent.tick] = [] := rfl
    rw [htick, List.append_nil]
    cases hc : s.current with
    | none =>
      have hq : qStep s QEvent.tick = s := by simp [qStep, hc]
      rw [hq]
      exact ⟨done, htrace, horder, hproc, hidle⟩
    | some p =>
      obtain ⟨ci, cn⟩ := p
      cases cn with
      | succ n' =>
        have hq : qStep s QEvent.tick = { s with current := some (ci, n') } := by
          simp [qStep, hc]
        refine ⟨done, ?_, ?_, ?_, ?_⟩
        · rw [hq]
          simp only [Option.map_some]
          rw [htrace, hc]
          rfl
        · rw [hq]
          simp only [horder, hc]
          rfl
        · rw [hq]
          simp [hproc, hc]
        · rw [hq]
          intro hcn
          simp at hcn
      | zero =>
        cases hqueue : s.queue with
        | cons hd rest =>
          obtain ⟨j, m⟩ := hd
          have hq : qStep s QEvent.tick =
              { queue := rest, processing := true, current := some (j, m),
                trace := s.trace ++ [TEvent.finish ci, TEvent.start j] } := by
            simp [qStep, hc, hqueue]
          refine ⟨done ++ [ci], ?_, ?_, ?_, ?_⟩
          · rw [hq]
            simp only [Option.map_some]
            rw [htrace, hc]
            exact mkSerial_push_finish_start done ci j
          · rw [hq]
            simp only [horder, hc, hqueue]
            simp [List.append_assoc]
          · rw [hq]
            rfl
          · rw [hq]
            intro hcn
            simp at hcn
        | nil =>
          have hq : qStep s QEvent.tick =
              { queue := [], processing := false, current := none,
                trace := s.trace ++ [TEvent.finish ci] } := by
            simp [qStep, hc, hqueue]
          refine ⟨done ++ [ci], ?_, ?_, ?_, ?_⟩
          · rw [hq]
            simp only [Option.map_none]
            rw [htrace, hc]
            exact mkSerial_push_finish done ci
          · rw [hq]
            simp only [horder, hc, hqueue]
            simp
          · rw [hq]
            rfl
          · intro _
            rw [hq]

theorem qRun_inv (evts : List QEvent) (s : QState) (order : List Nat)
    (h : QInv s order) : QInv (qRun s evts) (order ++ enqOrder evts) := by
  induction evts generalizing s order with
  | nil => simpa [qRun, enqOrder] using h
  | cons e rest ih =>
    have h1 := qStep_inv s order h e
    have h2 := ih (qStep s e) (order ++ enqOrder [e]) h1
    have : order ++ enqOrder [e] ++ enqOrder rest = order ++ enqOrder (e :: rest) := by
      cases e <;> simp [enqOrder]
    rw [this] at h2
    exact h2

/-- C9: the OperationQueue never runs two operations concurrently and never
reorders them — over every interleaving of enqueue calls and event-loop
steps, the observable trace is strictly serial (start o1, finish o1, start
o2, finish o2, ... with at most the start of one still-running operation at
the end) and the operations appear in it in exactly enqueue order: the
enqueue order equals finished operations, then the running one, then the
still-queued ones. -/
theorem operationQueue_serial_fifo (evts : List QEvent) :
    ∃ (done : List Nat) (cur : Option Nat),
      (qRun initQueue evts).trace = mkSerial done cur ∧
      enqOrder evts =
        done ++ cur.toList ++ (qRun initQueue evts).queue.map Prod.fst := by
  have h0 : QInv initQueue [] :=
    ⟨[], rfl, rfl, rfl, fun _ => rfl⟩
  have h := qRun_inv evts initQueue [] h0
  obtain ⟨done, htrace, horder, -, -⟩ := h
  exact ⟨done, (qRun initQueue evts).current.map Prod.fst, htrace,
    by simpa using horder⟩

/-- C1: concrete evaluation of the persistence-failure path.  A single
updateCell for cell cellA by userA at t equal 1000 succeeds synchronously
(the caller is told true before any persistence is attempted, because the
sink only runs when the detached debounce timer fires).  When the flush then
runs and the sink rejects, the rejection escapes the timer callback as an
unhandled promise rejection (delivered to no caller — updateCell's caller
already returned), the Version Manager's pending entry for cellA is still
present (no rollback ran), and the Cell Lock Manager still holds userA's
lock on cellA (no release ran): the catch block of updateCell that would
roll back, unlock and re-throw is unreachable for sink failures. -/
theorem updateCell_sink_failure_leaves_state :
    (updateCell initSync "cellA" (CellContent.str "x") "userA" 1000).1 = true ∧
    (fireBatchFlush
        (updateCell initSync "cellA" (CellContent.str "x") "userA" 1000).2
        "userA" (fun _ _ => Except.error "persist failed")).2 =
      some "persist failed" ∧
    mget (fireBatchFlush
        (updateCell initSync "cellA" (CellContent.str "x") "userA" 1000).2
        "userA" (fun _ _ => Except.error "persist failed")).1.vm.pendingUpdates
      "cellA" = some 1 ∧
    getLockedBy (fireBatchFlush
        (updateCell initSync "cellA" (CellContent.str "x") "userA" 1000).2
        "userA" (fun _ _ => Except.error "persist failed")).1.lm "cellA" =
      some "userA" ∧
    isLocked (fireBatchFlush
        (updateCell initSync "cellA" (CellContent.str "x") "userA" 1000).2
        "userA" (fun _ _ => Except.error "persist failed")).1.lm "cellA" =
      true :=
  ⟨rfl, rfl, rfl, rfl, rfl⟩
